import Mathlib

/-!
Verification of `src/openai_moonsun_utils/main.py` (odoonix/openai-utils).

The Python source is embedded shallowly: text is `List Char`, the parser
`extract_qa_entries` is a fold over the normalized, split lines with an
explicit state record, and the JSONL emitter is modelled character by
character.  Machine-level concerns (file handles, typer output) are modelled
as pure data where a claim needs them.
-/

namespace MoonSun

/-- Python `str.strip()` whitespace set (the Unicode whitespace code points
Python strips by default). -/
def pyIsSpace (c : Char) : Bool :=
  c = ' ' || c = '\t' || c = '\n' || c = '\x0b' || c = '\x0c' || c = '\r' ||
  c = '\x1c' || c = '\x1d' || c = '\x1e' || c = '\x1f' || c = '\u0085' ||
  c = ' ' || c = ' ' ||
  (' ' ≤ c && c ≤ ' ') ||
  c = ' ' || c = ' ' || c = ' ' || c = ' ' || c = '　'

/-- Python `str.strip()`: drop the whitespace run at both ends. -/
def strip (l : List Char) : List Char :=
  ((l.dropWhile pyIsSpace).reverse.dropWhile pyIsSpace).reverse

/-- First step of `normalize_text`: `text.replace('\r\n', '\n')`
(left-to-right, non-overlapping, as Python's `str.replace`). -/
def replCRLF : List Char → List Char
  | [] => []
  | [c] => [c]
  | c :: c2 :: rest =>
    if c = '\r' ∧ c2 = '\n' then '\n' :: replCRLF rest
    else c :: replCRLF (c2 :: rest)

/-- Second step of `normalize_text`: `text.replace('\r', '\n')`. -/
def replCR (l : List Char) : List Char :=
  l.map (fun c => if c = '\r' then '\n' else c)

/-- `normalize_text(text)`: collapse `\r\n` and `\r` to `\n`. -/
def normalize_text (t : List Char) : List Char :=
  replCR (replCRLF t)

/-- The line-break code points of Python `str.splitlines` (besides the
`\r\n` pair, which is handled separately). -/
def isLineBreakChar (c : Char) : Bool :=
  c = '\n' || c = '\r' || c = '\x0b' || c = '\x0c' ||
  c = '\x1c' || c = '\x1d' || c = '\x1e' || c = '\u0085' ||
  c = ' ' || c = ' '

/-- Worker for `pySplitlines`: `acc` is the current line, reversed. -/
def splitlinesAux : List Char → List Char → List (List Char)
  | [], acc => if acc.isEmpty then [] else [acc.reverse]
  | [c], acc =>
    if isLineBreakChar c then acc.reverse :: splitlinesAux [] []
    else splitlinesAux [] (c :: acc)
  | c :: c2 :: rest, acc =>
    if c = '\r' ∧ c2 = '\n' then acc.reverse :: splitlinesAux rest []
    else if isLineBreakChar c then acc.reverse :: splitlinesAux (c2 :: rest) []
    else splitlinesAux (c2 :: rest) (c :: acc)

/-- Python `str.splitlines()`: a trailing terminator does not create a final
empty line; the empty string yields no lines. -/
def pySplitlines (l : List Char) : List (List Char) :=
  splitlinesAux l []

/-- Python `"\n".join(lines)`. -/
def joinNL : List (List Char) → List Char
  | [] => []
  | [a] => a
  | a :: b :: rest => a ++ '\n' :: joinNL (b :: rest)

/-- `pat` is a prefix of `l` (Python `str.startswith`). -/
def listStartsWith : List Char → List Char → Bool
  | [], _ => true
  | _ :: _, [] => false
  | p :: ps, c :: cs => p = c && listStartsWith ps cs

/-- `pat` occurs as a contiguous substring of `l` (Python `in`). -/
def hasSub (pat : List Char) : List Char → Bool
  | [] => pat.isEmpty
  | c :: cs => listStartsWith pat (c :: cs) || hasSub pat cs

/-- `pat` is a suffix of `l` (Python `str.endswith`). -/
def listEndsWith (pat l : List Char) : Bool :=
  listStartsWith pat.reverse l.reverse

/-- Python `str.lower()`, restricted to the ASCII and Latin-1 uppercase
letters; these cover every code point of the source's literals (the parser's
`startswith` pattern contains U+00D8 and U+00D9, which Python lowers to
U+00F8 and U+00F9). -/
def pyToLower (c : Char) : Char :=
  if 'A' ≤ c && c ≤ 'Z' then Char.ofNat (c.toNat + 32)
  else if 0xC0 ≤ c.toNat && c.toNat ≤ 0xDE && c.toNat ≠ 0xD7 then
    Char.ofNat (c.toNat + 32)
  else c

/-- The question-glyph literal of `is_question`, by code point: the source
file's bytes decode to U+00D8 U+0178. -/
def qmarkGlyph : List Char := ['Ø', 'Ÿ']

/-- The `startswith` literal of `is_question`, by code point (eight
characters as decoded from the source file). -/
def sowalWord : List Char :=
  ['Ø', '³', 'Ù', 'ˆ', 'Ø', '§',
   'Ù', '„']

/-- `is_separator(line)`: `re.fullmatch(r"[-=]{3,}", line.strip())`. -/
def is_separator (l : List Char) : Bool :=
  let s := strip l
  decide (3 ≤ s.length) && s.all (fun c => c = '-' || c = '=')

/-- `is_question(line)`: glyph containment, trailing `?`, or lower-cased
`startswith` on the word literal. -/
def is_question (l : List Char) : Bool :=
  hasSub qmarkGlyph l ||
  (strip l).getLast? = some '?' ||
  listStartsWith sowalWord ((strip l).map pyToLower)

/-- The mutable state of `extract_qa_entries`'s loop. -/
structure PState where
  entries : List (List Char × List Char)
  invalid : Nat
  question : List Char
  answers : List (List Char)
  isReadingAnswer : Bool
  deriving DecidableEq, Repr

/-- Initial loop state. -/
def initState : PState :=
  { entries := [], invalid := 0, question := [], answers := [],
    isReadingAnswer := false }

/-- `flush_entry()`: emit the pending block or count it invalid, then reset
the question and answer buffers. -/
def flush_entry (s : PState) : PState :=
  if s.question ≠ [] ∧ s.answers ≠ [] then
    let clean := strip (joinNL (s.answers.filter (fun l => !is_separator l)))
    if clean ≠ [] then
      { s with entries := s.entries ++ [(strip s.question, clean)],
               question := [], answers := [] }
    else
      { s with invalid := s.invalid + 1, question := [], answers := [] }
  else if s.question ≠ [] ∧ s.answers = [] then
    { s with invalid := s.invalid + 1, question := [], answers := [] }
  else if s.question = [] ∧ s.answers ≠ [] then
    { s with invalid := s.invalid + 1, question := [], answers := [] }
  else
    { s with question := [], answers := [] }

/-- One iteration of the `for line in lines` loop. -/
def step (s : PState) (line : List Char) : PState :=
  let stripped := strip line
  if stripped = [] then s
  else if is_question stripped then
    { flush_entry s with question := stripped, isReadingAnswer := true }
  else if is_separator stripped then s
  else if s.isReadingAnswer then
    { s with answers := s.answers ++ [stripped] }
  else s

/-- `extract_qa_entries(text)`: fold the loop over the normalized lines and
flush the last block. -/
def extract_qa_entries (text : List Char) :
    List (List Char × List Char) × Nat :=
  let lines := pySplitlines (normalize_text text)
  let final := flush_entry (lines.foldl step initState)
  (final.entries, final.invalid)

/-! ### The `process` command (file discovery, validation, exit code)

`process(folder)` is modelled as a pure function of the answers the
operating system would give it: whether the path is a directory
(`os.path.isdir`) and the directory listing with each file's decoded text.
The exit code (0 on success, 1 via `typer.Exit(code=1)`) and the list of
entries written to `fine_tune_data.jsonl` are the observable outcome. -/

/-- The `.txt` extension checked by `f.endswith(".txt")`. -/
def txtExt : List Char := ".txt".toList

/-- The `.txt` entries of the directory listing, in listing order. -/
def txtNames (files : List (List Char × List Char)) :
    List (List Char × List Char) :=
  files.filter (fun f => listEndsWith txtExt f.1)

/-- The per-file re-validation loop of `process`: drop any parsed pair whose
question or answer strips to empty. -/
def validEntriesOf (text : List Char) : List (List Char × List Char) :=
  (extract_qa_entries text).1.filter
    (fun p => !(strip p.1).isEmpty && !(strip p.2).isEmpty)

/-- `all_entries` as accumulated by `process` over the `.txt` files. -/
def gatherEntries (files : List (List Char × List Char)) :
    List (List Char × List Char) :=
  (txtNames files).foldl (fun acc f => acc ++ validEntriesOf f.2) []

/-- `process(folder)`: exit code together with the entries written out.
`isDir` is `os.path.isdir(folder)`; `files` is the directory listing as
(name, decoded content) pairs. -/
def processResult (isDir : Bool) (files : List (List Char × List Char)) :
    Nat × List (List Char × List Char) :=
  if !isDir then (1, [])
  else if txtNames files = [] then (1, [])
  else if gatherEntries files = [] then (1, [])
  else (0, gatherEntries files)

/-! ### The JSONL record emitter (`convert_to_jsonl`)

`json.dumps(obj, ensure_ascii=False)` on the fixed three-message shape is
modelled character by character, including its escaping rules; a concrete
record parser witnesses that the record can be re-parsed. -/

/-- Lower-case hex digit, as used by `json.dumps` in `\u00XX` escapes. -/
def hexDigit (n : Nat) : Char :=
  if n < 10 then Char.ofNat (48 + n) else Char.ofNat (87 + n)

/-- The escaping of one character by `json.dumps(..., ensure_ascii=False)`:
only `"`, `\` and control characters below U+0020 are escaped; everything
else — in particular every non-ASCII character — passes through verbatim. -/
def escChar (c : Char) : List Char :=
  if c = '"' then ['\\', '"']
  else if c = '\\' then ['\\', '\\']
  else if c = '\x08' then ['\\', 'b']
  else if c = '\x0c' then ['\\', 'f']
  else if c = '\n' then ['\\', 'n']
  else if c = '\r' then ['\\', 'r']
  else if c = '\t' then ['\\', 't']
  else if c.toNat < 0x20 then
    ['\\', 'u', '0', '0', hexDigit (c.toNat / 16), hexDigit (c.toNat % 16)]
  else [c]

/-- Escape a whole string. -/
def escList : List Char → List Char
  | [] => []
  | c :: cs => escChar c ++ escList cs

/-- The constant system instruction of `convert_to_jsonl`, exactly the code
points of the source file's literal. -/
def sysContent : List Char :=
  "ØªÙˆ ÛŒÚ© Ú©Ø¯ Ø±ÛŒÙˆÛŒÙˆØ± Ù‡Ø³ØªÛŒ. Ø³ÙˆØ§Ù„ Ø¨Ø±Ù†Ø§Ù…Ù‡â€ŒÙ†ÙˆÛŒØ³ Ø±Ùˆ Ø¨Ø±Ø±Ø³ÛŒ Ú©Ù†.".toList

/-- The serialized record up to and including the opening quote of the user
content (`json.dumps` default separators). -/
def litPre : List Char :=
  "\x7b\"messages\": [\x7b\"role\": \"system\", \"content\": \"".toList ++
  escList sysContent ++
  "\"\x7d, \x7b\"role\": \"user\", \"content\": \"".toList

/-- From the quote closing the user content to the quote opening the
assistant content. -/
def litMid : List Char :=
  "\x7d, \x7b\"role\": \"assistant\", \"content\": \"".toList

/-- From the quote closing the assistant content to the end of the record. -/
def litEnd : List Char := "\x7d]\x7d".toList

/-- One line of `convert_to_jsonl`'s output (without the trailing newline
the writer appends): `json.dumps` of the three-message object. -/
def recordLine (q a : List Char) : List Char :=
  litPre ++ (escList q ++ ('"' :: (litMid ++ (escList a ++ ('"' :: litEnd)))))

/-- `convert_to_jsonl(entries)`: the byte content written to the output
file, one serialized record plus newline per pair, in order. -/
def convert_to_jsonl (entries : List (List Char × List Char)) : List Char :=
  (entries.map (fun p => recordLine p.1 p.2 ++ ['\n'])).flatten

/-- Value of a hex digit, for re-parsing `\uXXXX` escapes. -/
def hexVal (c : Char) : Option Nat :=
  if '0' ≤ c ∧ c ≤ '9' then some (c.toNat - 48)
  else if 'a' ≤ c ∧ c ≤ 'f' then some (c.toNat - 87)
  else if 'A' ≤ c ∧ c ≤ 'F' then some (c.toNat - 55)
  else none

/-- Parse a JSON string body up to its closing quote, un-escaping as the
JSON grammar prescribes; returns the decoded string and the rest of the
input. -/
def readJsonString : List Char → Option (List Char × List Char)
  | [] => none
  | c :: rest =>
    if c = '"' then some ([], rest)
    else if c = '\\' then
      match rest with
      | [] => none
      | e :: rest2 =>
        if e = '"' then (readJsonString rest2).map (fun p => ('"' :: p.1, p.2))
        else if e = '\\' then
          (readJsonString rest2).map (fun p => ('\\' :: p.1, p.2))
        else if e = '/' then
          (readJsonString rest2).map (fun p => ('/' :: p.1, p.2))
        else if e = 'b' then
          (readJsonString rest2).map (fun p => ('\x08' :: p.1, p.2))
        else if e = 'f' then
          (readJsonString rest2).map (fun p => ('\x0c' :: p.1, p.2))
        else if e = 'n' then
          (readJsonString rest2).map (fun p => ('\n' :: p.1, p.2))
        else if e = 'r' then
          (readJsonString rest2).map (fun p => ('\r' :: p.1, p.2))
        else if e = 't' then
          (readJsonString rest2).map (fun p => ('\t' :: p.1, p.2))
        else if e = 'u' then
          match rest2 with
          | h1 :: h2 :: h3 :: h4 :: rest3 =>
            match hexVal h1, hexVal h2, hexVal h3, hexVal h4 with
            | some a, some b, some c2, some d =>
              (readJsonString rest3).map
                (fun p => (Char.ofNat (4096 * a + 256 * b + 16 * c2 + d) :: p.1, p.2))
            | _, _, _, _ => none
          | _ => none
        else none
    else if c.toNat < 0x20 then none
    else (readJsonString rest).map (fun p => (c :: p.1, p.2))

/-- Consume an expected literal from the front of the input. -/
def dropLit : List Char → List Char → Option (List Char)
  | [], l => some l
  | _ :: _, [] => none
  | p :: ps, c :: cs => if p = c then dropLit ps cs else none

/-- Re-parse one serialized record: recover the user content and the
assistant content of a line of `convert_to_jsonl` output. -/
def parseRecordLine (l : List Char) : Option (List Char × List Char) :=
  match dropLit litPre l with
  | none => none
  | some l1 =>
    match readJsonString l1 with
    | none => none
    | some (q, l2) =>
      match dropLit litMid l2 with
      | none => none
      | some l3 =>
        match readJsonString l3 with
        | none => none
        | some (a, l4) =>
          match dropLit litEnd l4 with
          | none => none
          | some l5 => if l5 = [] then some (q, a) else none

/-! ### Well-formed blocks (the spec's block grammar, for C2)

A well-formed block is a question line followed by body lines, at least one
of which is a genuine answer line; the remaining body lines may be blank
lines or separator lines, which the parser skips. -/

/-- The loop appends this line to the answer buffer (when a question is
active): non-blank, not a question line, not a separator line. -/
def answerKeptB (l : List Char) : Bool :=
  !(strip l).isEmpty && !is_question (strip l) && !is_separator (strip l)

/-- A non-empty line free of every line-break code point (so that joining
with `\n` and re-splitting is the identity). -/
@[reducible] def NoBreakLine (l : List Char) : Prop :=
  l ≠ [] ∧ ∀ c ∈ l, isLineBreakChar c = false

/-- A line the parser classifies as a question. -/
@[reducible] def GoodQuestionLine (l : List Char) : Prop :=
  NoBreakLine l ∧ strip l ≠ [] ∧ is_question (strip l) = true

/-- A line the parser appends to the current answer. -/
@[reducible] def GoodAnswerLine (l : List Char) : Prop :=
  NoBreakLine l ∧ strip l ≠ [] ∧ is_question (strip l) = false ∧
  is_separator (strip l) = false

/-- A line the loop skips outright: blank after trimming, or a separator. -/
@[reducible] def SkippableLine (l : List Char) : Prop :=
  NoBreakLine l ∧ (strip l = [] ∨ is_separator (strip l) = true)

/-- One well-formed block of input: its question line and its body lines. -/
structure Block where
  q : List Char
  body : List (List Char)

/-- The block grammar of the spec: a question line, then body lines that
are each an answer line or skippable, with at least one answer line. -/
@[reducible] def GoodBlock (b : Block) : Prop :=
  GoodQuestionLine b.q ∧ (∀ l ∈ b.body, GoodAnswerLine l ∨ SkippableLine l) ∧
  b.body.filter answerKeptB ≠ []

/-- The lines a block contributes to the input text. -/
def blockLines (b : Block) : List (List Char) := b.q :: b.body

/-- All lines of a sequence of blocks, in order. -/
def renderBlocks (bs : List Block) : List (List Char) :=
  (bs.map blockLines).flatten

/-- The input text consisting of exactly these blocks. -/
def blockText (bs : List Block) : List Char := joinNL (renderBlocks bs)

/-- The pair the parser is expected to produce for one well-formed block. -/
def expectedPair (b : Block) : List Char × List Char :=
  (strip b.q, joinNL ((b.body.filter answerKeptB).map strip))

/-! ### The parser without its defensive orphaned-answer branch (for C10) -/

/-- `flush_entry` with the defensive orphaned-answer branch (empty question,
non-empty answer buffer) not counted. -/
def flush_entry_nodef (s : PState) : PState :=
  if s.question ≠ [] ∧ s.answers ≠ [] then
    let clean := strip (joinNL (s.answers.filter (fun l => !is_separator l)))
    if clean ≠ [] then
      { s with entries := s.entries ++ [(strip s.question, clean)],
               question := [], answers := [] }
    else
      { s with invalid := s.invalid + 1, question := [], answers := [] }
  else if s.question ≠ [] ∧ s.answers = [] then
    { s with invalid := s.invalid + 1, question := [], answers := [] }
  else
    { s with question := [], answers := [] }

/-- `step` built on `flush_entry_nodef`. -/
def step_nodef (s : PState) (line : List Char) : PState :=
  let stripped := strip line
  if stripped = [] then s
  else if is_question stripped then
    { flush_entry_nodef s with question := stripped, isReadingAnswer := true }
  else if is_separator stripped then s
  else if s.isReadingAnswer then
    { s with answers := s.answers ++ [stripped] }
  else s

/-- `extract_qa_entries` with the defensive branch removed. -/
def extract_qa_entries_nodef (text : List Char) :
    List (List Char × List Char) × Nat :=
  let lines := pySplitlines (normalize_text text)
  let final := flush_entry_nodef (lines.foldl step_nodef initState)
  (final.entries, final.invalid)

/-! ### The loop invariant (for C4 and C10) -/

/-- Shape of every pair the parser emits: trimmed non-empty question with
no embedded newline, trimmed non-empty answer. -/
def GoodEntry (p : List Char × List Char) : Prop :=
  p.1 ≠ [] ∧ strip p.1 = p.1 ∧ '\n' ∉ p.1 ∧ p.2 ≠ [] ∧ strip p.2 = p.2

/-- Invariant maintained by the loop from the initial state. -/
def Inv (s : PState) : Prop :=
  (s.isReadingAnswer = true → s.question ≠ []) ∧
  (s.isReadingAnswer = false → s.question = [] ∧ s.answers = []) ∧
  (s.question ≠ [] → strip s.question = s.question ∧ '\n' ∉ s.question) ∧
  (∀ p ∈ s.entries, GoodEntry p)

end MoonSun


namespace MoonSun

/-! ### Facts about `strip` -/

theorem strip_eq_rdropWhile (l : List Char) :
    strip l = List.rdropWhile pyIsSpace (l.dropWhile pyIsSpace) := rfl

theorem head_not_of_dropWhile_self {α : Type} {p : α → Bool} {x : α}
    {xs : List α} (h : (x :: xs).dropWhile p = x :: xs) : p x = false := by
  by_contra hx
  rw [Bool.not_eq_false] at hx
  rw [List.dropWhile_cons_of_pos hx] at h
  have hlen := congrArg List.length h
  have hle : (xs.dropWhile p).length ≤ xs.length :=
    (List.dropWhile_sublist p).length_le
  simp only [List.length_cons] at hlen
  omega

theorem dropWhile_eq_self_of_leading {α : Type} {p : α → Bool}
    {a b : List α} (hab : a <+: b) (hb : b.dropWhile p = b) :
    a.dropWhile p = a := by
  cases a with
  | nil => simp
  | cons x xs =>
    obtain ⟨t, ht⟩ := hab
    rw [← ht] at hb
    have hx : p x = false := head_not_of_dropWhile_self hb
    simp [List.dropWhile_cons_of_neg, hx]

theorem dropWhile_strip (l : List Char) :
    (strip l).dropWhile pyIsSpace = strip l :=
  dropWhile_eq_self_of_leading ( List.rdropWhile_prefix _ _)
    (List.dropWhile_idempotent _ _)

theorem rdropWhile_strip (l : List Char) :
    List.rdropWhile pyIsSpace (strip l) = strip l := by
  rw [strip_eq_rdropWhile]
  exact List.rdropWhile_idempotent _ _

theorem strip_eq_self {l : List Char} (h1 : l.dropWhile pyIsSpace = l)
    (h2 : List.rdropWhile pyIsSpace l = l) : strip l = l := by
  rw [strip_eq_rdropWhile, h1, h2]

theorem strip_idem (l : List Char) : strip (strip l) = strip l :=
  strip_eq_self (dropWhile_strip l) (rdropWhile_strip l)

theorem strip_sublist (l : List Char) : (strip l).Sublist l := by
  rw [strip_eq_rdropWhile]
  exact (( List.rdropWhile_prefix _ _).sublist).trans
    (List.dropWhile_sublist _)

theorem mem_strip {c : Char} {l : List Char} (h : c ∈ strip l) : c ∈ l :=
  (strip_sublist l).subset h

theorem dropWhile_append_of_left {α : Type} {p : α → Bool} {a : List α}
    (ha : a ≠ []) (h : a.dropWhile p = a) (t : List α) :
    (a ++ t).dropWhile p = a ++ t := by
  cases a with
  | nil => exact absurd rfl ha
  | cons x xs =>
    have hx : p x = false := head_not_of_dropWhile_self h
    simp [List.dropWhile_cons_of_neg, hx]

theorem rdropWhile_append_of_right {α : Type} {p : α → Bool} {t : List α}
    (ht : t ≠ []) (h : List.rdropWhile p t = t) (a : List α) :
    List.rdropWhile p (a ++ t) = a ++ t := by
  have h' : t.reverse.dropWhile p = t.reverse := by
    have := congrArg List.reverse h
    rwa [List.rdropWhile, List.reverse_reverse] at this
  have htr : t.reverse ≠ [] := by simpa using ht
  rw [List.rdropWhile, List.reverse_append,
    dropWhile_append_of_left htr h' a.reverse, ← List.reverse_append]
  simp

/-- A nonempty line with no leading and no trailing whitespace. -/
def TrimLine (l : List Char) : Prop :=
  l ≠ [] ∧ l.dropWhile pyIsSpace = l ∧ List.rdropWhile pyIsSpace l = l

theorem trimLine_strip {l : List Char} (h : strip l ≠ []) :
    TrimLine (strip l) :=
  ⟨h, dropWhile_strip l, rdropWhile_strip l⟩

theorem strip_eq_self_of_trimLine {l : List Char} (h : TrimLine l) :
    strip l = l :=
  strip_eq_self h.2.1 h.2.2

theorem trimLine_joinNL :
    ∀ As : List (List Char), As ≠ [] → (∀ a ∈ As, TrimLine a) →
      TrimLine (joinNL As)
  | [], h, _ => absurd rfl h
  | [a], _, hall => hall a (by simp)
  | a :: b :: rest, _, hall => by
    have hJ : TrimLine (joinNL (b :: rest)) :=
      trimLine_joinNL (b :: rest) (by simp)
        (fun x hx => hall x (List.mem_cons_of_mem a hx))
    have hA : TrimLine a := hall a (by simp)
    refine ⟨by simp [joinNL, hA.1], ?_, ?_⟩
    · rw [joinNL]
      exact dropWhile_append_of_left hA.1 hA.2.1 _
    · rw [joinNL]
      have : a ++ '\n' :: joinNL (b :: rest) =
          (a ++ ['\n']) ++ joinNL (b :: rest) := by simp
      rw [this]
      exact rdropWhile_append_of_right hJ.1 hJ.2.2 _

theorem strip_joinNL {As : List (List Char)} (hne : As ≠ [])
    (hall : ∀ a ∈ As, TrimLine a) : strip (joinNL As) = joinNL As :=
  strip_eq_self_of_trimLine (trimLine_joinNL As hne hall)

/-! ### Facts about `is_separator` and `is_question` -/

theorem is_separator_iff (l : List Char) :
    is_separator l = true ↔
      3 ≤ (strip l).length ∧ ∀ c ∈ strip l, c = '-' ∨ c = '=' := by
  simp [is_separator, List.all_eq_true, Bool.and_eq_true, decide_eq_true_eq]

theorem startsWith_head {p c : Char} {ps cs : List Char}
    (h : listStartsWith (p :: ps) (c :: cs) = true) : p = c := by
  simp only [listStartsWith, Bool.and_eq_true, decide_eq_true_eq] at h
  exact h.1

theorem mem_of_hasSub {p : Char} {ps l : List Char}
    (h : hasSub (p :: ps) l = true) : p ∈ l := by
  induction l with
  | nil => simp [hasSub] at h
  | cons c cs ih =>
    rw [hasSub, Bool.or_eq_true] at h
    rcases h with h | h
    · rw [startsWith_head h]; exact List.mem_cons_self c cs
    · exact List.mem_cons_of_mem c (ih h)

theorem mem_of_getLast?_eq {l : List Char} {a : Char}
    (h : l.getLast? = some a) : a ∈ l := by
  have hm : a ∈ l.getLast? := by rw [h]; rfl
  obtain ⟨hne, heq⟩ := List.mem_getLast?_eq_getLast hm
  rw [heq]
  exact List.getLast_mem hne

theorem sep_strip_ne_nil {l : List Char} (h : is_separator l = true) :
    strip l ≠ [] := by
  rcases (is_separator_iff l).mp h with ⟨h3, _⟩
  intro he
  rw [he] at h3
  simp at h3

theorem sep_not_question {l : List Char} (ht : strip l = l)
    (h : is_separator l = true) : is_question l = false := by
  rcases (is_separator_iff l).mp h with ⟨h3, hall⟩
  rw [ht] at h3 hall
  rw [is_question]
  simp only [Bool.or_eq_false_iff]
  refine ⟨⟨?_, ?_⟩, ?_⟩
  · cases hq : hasSub qmarkGlyph l with
    | false => rfl
    | true =>
      rw [show qmarkGlyph = 'Ø' :: qmarkGlyph.tail from rfl] at hq
      have hmem : 'Ø' ∈ l := mem_of_hasSub hq
      rcases hall _ hmem with h' | h' <;> exact absurd h' (by decide)
  · apply decide_eq_false
    intro hP
    rw [ht] at hP
    have hmem : '?' ∈ l := mem_of_getLast?_eq hP
    rcases hall _ hmem with h' | h' <;> exact absurd h' (by decide)
  · rw [ht]
    cases l with
    | nil => simp at h3
    | cons c cs =>
      cases hs : listStartsWith sowalWord ((c :: cs).map pyToLower) with
      | false => rfl
      | true =>
        rw [List.map_cons,
          show sowalWord = 'Ø' :: sowalWord.tail from rfl] at hs
        have hhead := startsWith_head hs
        have hcm : c ∈ c :: cs := List.mem_cons_self c cs
        rcases hall _ hcm with h' | h' <;>
          · rw [h'] at hhead
            exact absurd hhead (by decide)

theorem blank_not_question : is_question [] = false := by decide

/-! ### Behaviour of one loop iteration and of the flush -/

theorem step_blank (s : PState) {line : List Char} (h : strip line = []) :
    step s line = s := by
  simp [step, h]

theorem step_question (s : PState) {line : List Char}
    (h1 : strip line ≠ []) (h2 : is_question (strip line) = true) :
    step s line =
      { flush_entry s with question := strip line, isReadingAnswer := true } := by
  simp [step, h1, h2]

theorem step_sep (s : PState) {line : List Char}
    (h : is_separator (strip line) = true) : step s line = s := by
  have h1 : strip line ≠ [] := by
    have := sep_strip_ne_nil h
    rwa [strip_idem] at this
  have h2 : is_question (strip line) = false :=
    sep_not_question (strip_idem line) h
  simp [step, h1, h2, h]

theorem step_answer (s : PState) {line : List Char}
    (h1 : strip line ≠ []) (h2 : is_question (strip line) = false)
    (h3 : is_separator (strip line) = false)
    (hr : s.isReadingAnswer = true) :
    step s line = { s with answers := s.answers ++ [strip line] } := by
  simp [step, h1, h2, h3, hr]

theorem flush_empty (s : PState) (hq : s.question = [])
    (ha : s.answers = []) : flush_entry s = s := by
  obtain ⟨e, n, q, a, r⟩ := s
  simp only at hq ha
  subst hq
  subst ha
  simp [flush_entry]

theorem flush_noanswer (s : PState) (hq : s.question ≠ [])
    (ha : s.answers = []) :
    flush_entry s =
      { s with invalid := s.invalid + 1, question := [], answers := [] } := by
  simp [flush_entry, hq, ha]

/-! ### Facts about `normalize_text` and `pySplitlines` -/

theorem replCRLF_eq_self : ∀ {t : List Char}, '\r' ∉ t → replCRLF t = t
  | [], _ => rfl
  | [_], _ => rfl
  | c :: c2 :: rest, h => by
    have hc : c ≠ '\r' := fun e => h (e ▸ List.mem_cons_self c (c2 :: rest))
    rw [replCRLF, if_neg (fun hand => hc hand.1)]
    congr 1
    exact replCRLF_eq_self (fun hm => h (List.mem_cons_of_mem c hm))

theorem replCR_eq_self {t : List Char} (h : '\r' ∉ t) : replCR t = t := by
  rw [replCR]
  conv_rhs => rw [← List.map_id t]
  refine List.map_congr_left (fun c hc => ?_)
  have hne : c ≠ '\r' := fun e => h (e ▸ hc)
  rw [if_neg hne]
  rfl

theorem normalize_eq_self {t : List Char} (h : '\r' ∉ t) :
    normalize_text t = t := by
  rw [normalize_text, replCRLF_eq_self h, replCR_eq_self h]

theorem cr_isLineBreak : isLineBreakChar '\r' = true := by decide

theorem nl_isLineBreak : isLineBreakChar '\n' = true := by decide

theorem splitlinesAux_text {a : List Char}
    (ha : ∀ c ∈ a, isLineBreakChar c = false) :
    ∀ t acc, splitlinesAux (a ++ t) acc = splitlinesAux t (a.reverse ++ acc) := by
  induction a with
  | nil => intro t acc; simp
  | cons x xs ih =>
    intro t acc
    have hx : isLineBreakChar x = false := ha x (List.mem_cons_self x xs)
    have hxs : ∀ c ∈ xs, isLineBreakChar c = false :=
      fun c hc => ha c (List.mem_cons_of_mem x hc)
    have hxr : x ≠ '\r' := fun e => by rw [e, cr_isLineBreak] at hx; cases hx
    cases hxt : xs ++ t with
    | nil =>
      obtain ⟨hxs0, ht0⟩ := List.append_eq_nil.mp hxt
      subst hxs0; subst ht0
      show splitlinesAux [x] acc = splitlinesAux [] ([x].reverse ++ acc)
      simp [splitlinesAux, hx]
    | cons y ys =>
      show splitlinesAux (x :: (xs ++ t)) acc = _
      rw [hxt, splitlinesAux, if_neg (fun hand => hxr hand.1),
        if_neg (by rw [hx]; exact Bool.false_ne_true), ← hxt,
        ih hxs t (x :: acc)]
      congr 1
      simp

theorem joinNL_ne_nil :
    ∀ {L : List (List Char)}, L ≠ [] → (∀ l ∈ L, l ≠ []) → joinNL L ≠ []
  | [], h, _ => absurd rfl h
  | [a], _, hall => by simpa [joinNL] using hall a (by simp)
  | a :: b :: rest, _, hall => by
    simp [joinNL, hall a (by simp)]

theorem splitlines_joinNL :
    ∀ {L : List (List Char)},
      (∀ l ∈ L, l ≠ [] ∧ ∀ c ∈ l, isLineBreakChar c = false) →
      pySplitlines (joinNL L) = L
  | [], _ => rfl
  | [a], hall => by
    obtain ⟨hne, hnb⟩ := hall a (by simp)
    show splitlinesAux (joinNL [a]) [] = [a]
    rw [joinNL, ← List.append_nil a, splitlinesAux_text hnb [] []]
    rw [splitlinesAux]
    rw [if_neg (by simp [hne])]
    simp
  | a :: b :: rest, hall => by
    obtain ⟨hne, hnb⟩ := hall a (by simp)
    have hall' : ∀ l ∈ b :: rest, l ≠ [] ∧ ∀ c ∈ l, isLineBreakChar c = false :=
      fun l hl => hall l (List.mem_cons_of_mem a hl)
    have hJne : joinNL (b :: rest) ≠ [] :=
      joinNL_ne_nil (by simp) (fun l hl => (hall' l hl).1)
    show splitlinesAux (joinNL (a :: b :: rest)) [] = a :: b :: rest
    rw [joinNL, splitlinesAux_text hnb ('\n' :: joinNL (b :: rest)) []]
    cases hJ : joinNL (b :: rest) with
    | nil => exact absurd hJ hJne
    | cons y ys =>
      rw [splitlinesAux, if_neg (fun hand => absurd hand.1 (by decide)),
        if_pos nl_isLineBreak]
      rw [← hJ]
      have : pySplitlines (joinNL (b :: rest)) = b :: rest :=
        splitlines_joinNL hall'
      rw [pySplitlines] at this
      rw [this]
      simp

theorem splitlinesAux_noBreak :
    ∀ t acc, (∀ c ∈ acc, isLineBreakChar c = false) →
      ∀ l ∈ splitlinesAux t acc, ∀ c ∈ l, isLineBreakChar c = false
  | [], acc, hacc => by
    rw [splitlinesAux]
    split
    · simp
    · intro l hl c hc
      rw [List.mem_singleton] at hl
      subst hl
      exact hacc c (List.mem_reverse.mp hc)
  | [x], acc, hacc => by
    rw [splitlinesAux]
    split
    · intro l hl d hd
      rcases List.mem_cons.mp hl with h | h
      · subst h; exact hacc d (List.mem_reverse.mp hd)
      · exact splitlinesAux_noBreak [] [] (by simp) l h d hd
    · next hnb =>
      have hx : isLineBreakChar x = false := by simpa using hnb
      refine splitlinesAux_noBreak [] (x :: acc) ?_
      intro d hd
      rcases List.mem_cons.mp hd with h | h
      · subst h; exact hx
      · exact hacc d h
  | x :: x2 :: rest, acc, hacc => by
    rw [splitlinesAux]
    split
    · intro l hl d hd
      rcases List.mem_cons.mp hl with h | h
      · subst h; exact hacc d (List.mem_reverse.mp hd)
      · exact splitlinesAux_noBreak rest [] (by simp) l h d hd
    · split
      · intro l hl d hd
        rcases List.mem_cons.mp hl with h | h
        · subst h; exact hacc d (List.mem_reverse.mp hd)
        · exact splitlinesAux_noBreak (x2 :: rest) [] (by simp) l h d hd
      · next hnb =>
        have hx : isLineBreakChar x = false := by simpa using hnb
        refine splitlinesAux_noBreak (x2 :: rest) (x :: acc) ?_
        intro d hd
        rcases List.mem_cons.mp hd with h | h
        · subst h; exact hx
        · exact hacc d h

theorem splitlines_no_nl {t l : List Char} (hl : l ∈ pySplitlines t) :
    '\n' ∉ l := by
  intro hc
  have := splitlinesAux_noBreak t [] (by simp) l hl '\n' hc
  rw [nl_isLineBreak] at this
  cases this

theorem flush_emit (s : PState) (hq : s.question ≠ []) (ha : s.answers ≠ [])
    (hc : strip (joinNL (s.answers.filter (fun l => !is_separator l))) ≠ []) :
    flush_entry s =
      { s with
        entries := s.entries ++
          [(strip s.question,
            strip (joinNL (s.answers.filter (fun l => !is_separator l))))],
        question := [], answers := [] } := by
  simp [flush_entry, hq, ha, hc]

end MoonSun

namespace MoonSun

/-! ### Folding the loop over well-formed blocks -/

theorem answerKeptB_of_good {l : List Char} (h : GoodAnswerLine l) :
    answerKeptB l = true := by
  obtain ⟨_, h1, h2, h3⟩ := h
  simp [answerKeptB, h1, h2, h3]

theorem answerKeptB_of_skip {l : List Char} (h : SkippableLine l) :
    answerKeptB l = false := by
  rcases h.2 with h2 | h2
  · simp [answerKeptB, h2]
  · simp [answerKeptB, h2]

theorem step_skip (s : PState) {l : List Char} (h : SkippableLine l) :
    step s l = s := by
  rcases h.2 with hb | hs
  · exact step_blank s hb
  · exact step_sep s hs

theorem foldl_step_body :
    ∀ (body : List (List Char)) (s : PState), s.isReadingAnswer = true →
      (∀ l ∈ body, GoodAnswerLine l ∨ SkippableLine l) →
      List.foldl step s body =
        { s with answers := s.answers ++ (body.filter answerKeptB).map strip }
  | [], s, _, _ => by simp
  | l :: rest, s, hr, hall => by
    rcases hall l (List.mem_cons_self l rest) with hg | hsk
    · rw [List.foldl_cons, step_answer s hg.2.1 hg.2.2.1 hg.2.2.2 hr,
        foldl_step_body rest _ (by simp [hr])
          (fun x hx => hall x (List.mem_cons_of_mem l hx))]
      simp [List.filter_cons, answerKeptB_of_good hg]
    · rw [List.foldl_cons, step_skip s hsk,
        foldl_step_body rest s hr
          (fun x hx => hall x (List.mem_cons_of_mem l hx))]
      simp [List.filter_cons, answerKeptB_of_skip hsk]

theorem kept_elts {body : List (List Char)}
    (hall : ∀ l ∈ body, GoodAnswerLine l ∨ SkippableLine l) :
    ∀ a ∈ (body.filter answerKeptB).map strip,
      TrimLine a ∧ is_separator a = false := by
  intro a ha
  obtain ⟨l, hl, heq⟩ := List.mem_map.mp ha
  subst heq
  have hlb : l ∈ body := List.mem_of_mem_filter hl
  have hkl : answerKeptB l = true := List.of_mem_filter hl
  rcases hall l hlb with hg | hsk
  · exact ⟨trimLine_strip hg.2.1, hg.2.2.2⟩
  · rw [answerKeptB_of_skip hsk] at hkl
    cases hkl

theorem flush_pending (E : List (List Char × List Char)) (n : Nat)
    (qq : List Char) (body : List (List Char)) (hq : qq ≠ [])
    (hall : ∀ l ∈ body, GoodAnswerLine l ∨ SkippableLine l)
    (hkept : body.filter answerKeptB ≠ []) :
    flush_entry
      { entries := E, invalid := n, question := qq,
        answers := (body.filter answerKeptB).map strip,
        isReadingAnswer := true } =
    { entries := E ++
        [(strip qq, joinNL ((body.filter answerKeptB).map strip))],
      invalid := n, question := [], answers := [],
      isReadingAnswer := true } := by
  have helts := kept_elts hall
  have hAs_ne : (body.filter answerKeptB).map strip ≠ [] := by
    intro h0
    rw [List.map_eq_nil_iff] at h0
    exact hkept h0
  have hfilter :
      ((body.filter answerKeptB).map strip).filter
        (fun l => !is_separator l) = (body.filter answerKeptB).map strip :=
    List.filter_eq_self.mpr (fun a ha => by rw [(helts a ha).2]; rfl)
  have hJtrim : TrimLine (joinNL ((body.filter answerKeptB).map strip)) :=
    trimLine_joinNL _ hAs_ne (fun a ha => (helts a ha).1)
  have hclean :
      strip (joinNL (((body.filter answerKeptB).map strip).filter
        (fun l => !is_separator l))) =
      joinNL ((body.filter answerKeptB).map strip) := by
    rw [hfilter]
    exact strip_eq_self_of_trimLine hJtrim
  rw [flush_emit _ hq hAs_ne (by rw [hclean]; exact hJtrim.1)]
  rw [hclean]

theorem renderBlocks_cons (b : Block) (bs : List Block) :
    renderBlocks (b :: bs) = b.q :: (b.body ++ renderBlocks bs) := by
  simp [renderBlocks, blockLines]

theorem foldl_blocks :
    ∀ (bs : List Block) (E : List (List Char × List Char)) (n : Nat)
      (qq : List Char) (body : List (List Char)),
      qq ≠ [] →
      (∀ l ∈ body, GoodAnswerLine l ∨ SkippableLine l) →
      body.filter answerKeptB ≠ [] →
      (∀ b ∈ bs, GoodBlock b) →
      flush_entry (List.foldl step
        { entries := E, invalid := n, question := qq,
          answers := (body.filter answerKeptB).map strip,
          isReadingAnswer := true } (renderBlocks bs)) =
      { entries := E ++
          (strip qq, joinNL ((body.filter answerKeptB).map strip)) ::
            bs.map expectedPair,
        invalid := n, question := [], answers := [],
        isReadingAnswer := true }
  | [], E, n, qq, body, hq, hall, hkept, _ => by
    show flush_entry (List.foldl step _ (renderBlocks [])) = _
    rw [show renderBlocks [] = [] from rfl, List.foldl_nil,
      flush_pending E n qq body hq hall hkept]
    rfl
  | b :: bs', E, n, qq, body, hq, hall, hkept, hbs => by
    obtain ⟨hq_b, hall_b, hkept_b⟩ := hbs b (List.mem_cons_self b bs')
    rw [renderBlocks_cons, List.foldl_cons,
      step_question _ hq_b.2.1 hq_b.2.2,
      flush_pending E n qq body hq hall hkept, List.foldl_append,
      foldl_step_body b.body _ rfl hall_b]
    have := foldl_blocks bs'
      (E ++ [(strip qq, joinNL ((body.filter answerKeptB).map strip))])
      n (strip b.q) b.body hq_b.2.1 hall_b hkept_b
      (fun x hx => hbs x (List.mem_cons_of_mem b hx))
    simp only [List.nil_append] at this ⊢
    rw [this, strip_idem]
    simp [expectedPair]

end MoonSun

namespace MoonSun

/-! ### Remaining flush branches and the entries characterization -/

theorem flush_noclean (s : PState) (hq : s.question ≠ [])
    (ha : s.answers ≠ [])
    (hc : strip (joinNL (s.answers.filter (fun l => !is_separator l))) = []) :
    flush_entry s =
      { s with invalid := s.invalid + 1, question := [], answers := [] } := by
  simp [flush_entry, hq, ha, hc]

theorem flush_orphan (s : PState) (hq : s.question = [])
    (ha : s.answers ≠ []) :
    flush_entry s =
      { s with invalid := s.invalid + 1, question := [], answers := [] } := by
  simp [flush_entry, hq, ha]

theorem flush_entries_sub (s : PState) :
    (flush_entry s).entries = s.entries ∨
    ((flush_entry s).entries = s.entries ++
        [(strip s.question,
          strip (joinNL (s.answers.filter (fun l => !is_separator l))))] ∧
      s.question ≠ [] ∧
      strip (joinNL (s.answers.filter (fun l => !is_separator l))) ≠ []) := by
  by_cases h1 : s.question ≠ [] ∧ s.answers ≠ []
  · by_cases h2 :
      strip (joinNL (s.answers.filter (fun l => !is_separator l))) ≠ []
    · right
      rw [flush_emit s h1.1 h1.2 h2]
      exact ⟨rfl, h1.1, h2⟩
    · left
      rw [flush_noclean s h1.1 h1.2 (not_ne_iff.mp h2)]
  · by_cases h2 : s.question ≠ [] ∧ s.answers = []
    · left
      rw [flush_noanswer s h2.1 h2.2]
    · by_cases h3 : s.question = [] ∧ s.answers ≠ []
      · left
        rw [flush_orphan s h3.1 h3.2]
      · have hq : s.question = [] := by
          by_contra hq
          cases ha2 : s.answers with
          | nil => exact h2 ⟨hq, ha2⟩
          | cons x xs => exact h1 ⟨hq, by rw [ha2]; simp⟩
        have ha : s.answers = [] := by
          by_contra ha
          exact h3 ⟨hq, ha⟩
        left
        rw [flush_empty s hq ha]

theorem flush_entries_good {s : PState} (h : Inv s) :
    ∀ p ∈ (flush_entry s).entries, GoodEntry p := by
  intro p hp
  rcases flush_entries_sub s with he | ⟨he, hq, hc⟩
  · exact h.2.2.2 p (he ▸ hp)
  · rw [he] at hp
    rcases List.mem_append.mp hp with hold | hnew
    · exact h.2.2.2 p hold
    · rw [List.mem_singleton] at hnew
      subst hnew
      obtain ⟨hqt, hqnl⟩ := h.2.2.1 hq
      refine ⟨?_, strip_idem _, ?_, hc, strip_idem _⟩
      · rw [hqt]; exact hq
      · intro hm
        exact hqnl (mem_strip hm)

theorem flush_eq_nodef {s : PState} (h : Inv s) :
    flush_entry s = flush_entry_nodef s := by
  by_cases h1 : s.question ≠ [] ∧ s.answers ≠ []
  · simp [flush_entry, flush_entry_nodef, h1]
  · by_cases h2 : s.question ≠ [] ∧ s.answers = []
    · simp [flush_entry, flush_entry_nodef, h1, h2]
    · have hq : s.question = [] := by
        by_contra hq
        cases ha2 : s.answers with
        | nil => exact h2 ⟨hq, ha2⟩
        | cons x xs => exact h1 ⟨hq, by rw [ha2]; simp⟩
      have hr : s.isReadingAnswer = false := by
        cases hrb : s.isReadingAnswer
        · rfl
        · exact absurd hq (h.1 hrb)
      have ha : s.answers = [] := (h.2.1 hr).2
      simp [flush_entry, flush_entry_nodef, hq, ha]

/-! ### The invariant through one step and through the fold -/

theorem step_inv {s : PState} {line : List Char} (h : Inv s)
    (hnl : '\n' ∉ line) :
    Inv (step s line) ∧ step s line = step_nodef s line := by
  by_cases hb : strip line = []
  · rw [step_blank s hb, show step_nodef s line = s by simp [step_nodef, hb]]
    exact ⟨h, rfl⟩
  · by_cases hqn : is_question (strip line) = true
    · rw [step_question s hb hqn]
      have hnodef : step_nodef s line =
          { flush_entry_nodef s with
            question := strip line
            isReadingAnswer := true } := by
        simp [step_nodef, hb, hqn]
      refine ⟨?_, by rw [hnodef, ← flush_eq_nodef h]⟩
      refine ⟨fun _ => hb, ?_, fun _ => ?_, ?_⟩
      · intro hr
        exact absurd hr (by simp)
      · exact ⟨strip_idem line, fun hm => hnl (mem_strip hm)⟩
      · intro p hp
        exact flush_entries_good h p hp
    · have hq2 : is_question (strip line) = false := by simpa using hqn
      by_cases hsep : is_separator (strip line) = true
      · rw [step_sep s hsep,
          show step_nodef s line = s by simp [step_nodef, hb, hq2, hsep]]
        exact ⟨h, rfl⟩
      · have hs2 : is_separator (strip line) = false := by simpa using hsep
        by_cases hr : s.isReadingAnswer = true
        · rw [step_answer s hb hq2 hs2 hr]
          refine ⟨?_, by simp [step_nodef, hb, hq2, hs2, hr]⟩
          refine ⟨fun _ => h.1 hr, fun hrf => ?_, fun hq => h.2.2.1 hq, ?_⟩
          · rw [hr] at hrf; cases hrf
          · intro p hp
            exact h.2.2.2 p hp
        · have hrf : s.isReadingAnswer = false := by simpa using hr
          rw [show step s line = s by simp [step, hb, hq2, hs2, hrf],
            show step_nodef s line = s by simp [step_nodef, hb, hq2, hs2, hrf]]
          exact ⟨h, rfl⟩

theorem inv_init : Inv initState := by
  refine ⟨?_, ?_, ?_, ?_⟩
  · intro h
    exact absurd h (by simp [initState])
  · intro _
    exact ⟨rfl, rfl⟩
  · intro hq
    exact absurd rfl hq
  · intro p hp
    exact absurd hp (by simp [initState])

theorem foldl_inv :
    ∀ (lines : List (List Char)) (s : PState), Inv s →
      (∀ l ∈ lines, '\n' ∉ l) →
      Inv (List.foldl step s lines) ∧
      List.foldl step s lines = List.foldl step_nodef s lines
  | [], s, h, _ => ⟨h, rfl⟩
  | l :: rest, s, h, hnl => by
    obtain ⟨h1, h2⟩ := step_inv h (hnl l (List.mem_cons_self l rest))
    obtain ⟨h3, h4⟩ := foldl_inv rest (step s l) h1
      (fun x hx => hnl x (List.mem_cons_of_mem l hx))
    exact ⟨h3, by rw [List.foldl_cons, List.foldl_cons, h4, h2]⟩

theorem extract_unfold (text : List Char) :
    extract_qa_entries text =
      ((flush_entry
          ((pySplitlines (normalize_text text)).foldl step initState)).entries,
       (flush_entry
          ((pySplitlines (normalize_text text)).foldl step initState)).invalid) :=
  rfl

theorem extract_nodef_unfold (text : List Char) :
    extract_qa_entries_nodef text =
      ((flush_entry_nodef
          ((pySplitlines (normalize_text text)).foldl step_nodef
            initState)).entries,
       (flush_entry_nodef
          ((pySplitlines (normalize_text text)).foldl step_nodef
            initState)).invalid) :=
  rfl

theorem extract_final_inv (text : List Char) :
    Inv ((pySplitlines (normalize_text text)).foldl step initState) :=
  (foldl_inv _ initState inv_init
    (fun _ hl => splitlines_no_nl hl)).1

theorem extract_entries_good (text : List Char) :
    ∀ p ∈ (extract_qa_entries text).1, GoodEntry p := by
  intro p hp
  rw [extract_unfold] at hp
  exact flush_entries_good (extract_final_inv text) p hp

theorem extract_eq_nodef (text : List Char) :
    extract_qa_entries text = extract_qa_entries_nodef text := by
  rw [extract_unfold, extract_nodef_unfold,
    ← (foldl_inv _ initState inv_init (fun _ hl => splitlines_no_nl hl)).2,
    ← flush_eq_nodef (extract_final_inv text)]

/-! ### Decomposing rendered blocks -/

theorem mem_renderBlocks {l : List Char} {bs : List Block}
    (h : l ∈ renderBlocks bs) : ∃ b ∈ bs, l = b.q ∨ l ∈ b.body := by
  rw [renderBlocks] at h
  obtain ⟨ls, hls, hl⟩ := List.mem_flatten.mp h
  obtain ⟨b, hb, heq⟩ := List.mem_map.mp hls
  subst heq
  refine ⟨b, hb, ?_⟩
  rcases List.mem_cons.mp hl with h | h
  · exact Or.inl h
  · exact Or.inr h

theorem mem_joinNL :
    ∀ {L : List (List Char)} {c : Char}, c ∈ joinNL L →
      c = '\n' ∨ ∃ l ∈ L, c ∈ l
  | [], c, h => by simp [joinNL] at h
  | [a], c, h => Or.inr ⟨a, by simp, by simpa [joinNL] using h⟩
  | a :: b :: rest, c, h => by
    rw [joinNL] at h
    rcases List.mem_append.mp h with h | h
    · exact Or.inr ⟨a, by simp, h⟩
    · rcases List.mem_cons.mp h with h | h
      · exact Or.inl h
      · rcases mem_joinNL h with h | ⟨l, hl, hc⟩
        · exact Or.inl h
        · exact Or.inr ⟨l, List.mem_cons_of_mem a hl, hc⟩

end MoonSun

namespace MoonSun

/-! ### Claim theorems -/

theorem foldl_blank :
    ∀ (lines : List (List Char)) (s : PState),
      (∀ l ∈ lines, strip l = []) → List.foldl step s lines = s
  | [], _, _ => rfl
  | l :: rest, s, h => by
    rw [List.foldl_cons, step_blank s (h l (List.mem_cons_self l rest)),
      foldl_blank rest s (fun x hx => h x (List.mem_cons_of_mem l hx))]

/-- C2: a text consisting of exactly the lines of N well-formed blocks
(question line, then body lines with at least one answer line, the rest
blank or separator lines) parses to exactly N pairs, one per block in block
order, with `invalid_count = 0`. -/
theorem extract_wellFormed_blocks (bs : List Block)
    (hbs : ∀ b ∈ bs, GoodBlock b) :
    extract_qa_entries (blockText bs) = (bs.map expectedPair, 0) ∧
    (extract_qa_entries (blockText bs)).1.length = bs.length := by
  have hlineprops : ∀ l ∈ renderBlocks bs,
      l ≠ [] ∧ ∀ c ∈ l, isLineBreakChar c = false := by
    intro l hl
    obtain ⟨b, hb, hcase⟩ := mem_renderBlocks hl
    obtain ⟨hqb, hbody, _⟩ := hbs b hb
    rcases hcase with rfl | hbodymem
    · exact hqb.1
    · rcases hbody l hbodymem with hg | hsk
      · exact hg.1
      · exact hsk.1
  have hmain : extract_qa_entries (blockText bs) = (bs.map expectedPair, 0) := by
    have hnr : '\r' ∉ blockText bs := by
      intro hmem
      rcases mem_joinNL hmem with he | ⟨l, hl, hc⟩
      · exact absurd he (by decide)
      · have hb := (hlineprops l hl).2 '\r' hc
        rw [cr_isLineBreak] at hb
        cases hb
    have hlines : pySplitlines (normalize_text (blockText bs)) =
        renderBlocks bs := by
      rw [normalize_eq_self hnr, blockText]
      exact splitlines_joinNL hlineprops
    cases bs with
    | nil => decide
    | cons b bs' =>
      obtain ⟨hqb, hbody, hkept⟩ := hbs b (List.mem_cons_self b bs')
      rw [extract_unfold, hlines, renderBlocks_cons, List.foldl_cons,
        step_question initState hqb.2.1 hqb.2.2, flush_empty initState rfl rfl,
        List.foldl_append, foldl_step_body b.body _ rfl hbody]
      have hfb := foldl_blocks bs' [] 0 (strip b.q) b.body hqb.2.1 hbody hkept
        (fun x hx => hbs x (List.mem_cons_of_mem b hx))
      simp only [initState, List.nil_append]
      rw [hfb, strip_idem]
      simp [expectedPair]
  exact ⟨hmain, by rw [hmain]; simp⟩

theorem extract_wellFormed_blocks_witness :
    extract_qa_entries
        (blockText [⟨"Is it ok?".toList, ["Yes.".toList]⟩]) =
      ([("Is it ok?".toList, "Yes.".toList)], 0) :=
  ((extract_wellFormed_blocks [⟨"Is it ok?".toList, ["Yes.".toList]⟩]
    (by decide)).1).trans (by decide)

/-- C4: every pair the parser emits has a question and an answer that are
non-empty after trimming. -/
theorem extract_pairs_nonempty (text : List Char)
    (p : List Char × List Char) (hp : p ∈ (extract_qa_entries text).1) :
    strip p.1 ≠ [] ∧ strip p.2 ≠ [] := by
  obtain ⟨h1, h2, _, h4, h5⟩ := extract_entries_good text p hp
  exact ⟨by rw [h2]; exact h1, by rw [h5]; exact h4⟩

theorem extract_pairs_nonempty_witness :
    ("Q?".toList, "A".toList) ∈ (extract_qa_entries "Q?\nA\n".toList).1 ∧
    (strip "Q?".toList ≠ [] ∧ strip "A".toList ≠ []) :=
  ⟨by decide, extract_pairs_nonempty "Q?\nA\n".toList
    ("Q?".toList, "A".toList) (by decide)⟩

/-- C5: the parser is a total function: every input string, the empty
string included, yields a pair sequence and an invalid count (it is defined
by pure recursion, with no I/O and no exceptional exit). -/
theorem extract_total :
    (∀ text : List Char, ∃ pairs invalidCount,
      extract_qa_entries text = (pairs, invalidCount)) ∧
    extract_qa_entries [] = ([], 0) :=
  ⟨fun _ => ⟨_, _, rfl⟩, by decide⟩

/-- C6: a question with an empty answer buffer yields no pair and exactly
one extra invalid count, both when the next question line arrives and at
end of input; the single-question scenario gives 0 pairs, count 1. -/
theorem question_without_answer_invalid :
    (∀ (s : PState) (line : List Char), s.question ≠ [] → s.answers = [] →
      strip line ≠ [] → is_question (strip line) = true →
      step s line =
        { s with
          invalid := s.invalid + 1
          question := strip line
          answers := []
          isReadingAnswer := true }) ∧
    extract_qa_entries ("Question with no answer?\n".toList) = ([], 1) := by
  constructor
  · intro s line hq ha hl hql
    rw [step_question s hl hql, flush_noanswer s hq ha]
  · decide

theorem question_without_answer_invalid_witness :
    step { entries := [], invalid := 0, question := "Q?".toList,
           answers := [], isReadingAnswer := true } "R?".toList =
      { entries := [], invalid := 1, question := "R?".toList,
        answers := [], isReadingAnswer := true } :=
  question_without_answer_invalid.1 _ _ (by decide) rfl (by decide) (by decide)

/-- C7: a separator line leaves the loop state untouched (never appended,
never flushes, never splits a block), and a separator between two answer
lines is removed from the joined answer of a single emitted pair. -/
theorem separator_lines_ignored :
    (∀ (s : PState) (line : List Char),
      is_separator (strip line) = true → step s line = s) ∧
    extract_qa_entries ("Q?\nA1\n---\nA2\n".toList) =
      ([("Q?".toList, "A1\nA2".toList)], 0) :=
  ⟨fun s line h => step_sep s h, by decide⟩

theorem separator_lines_ignored_witness :
    step initState "-----".toList = initState :=
  separator_lines_ignored.1 initState "-----".toList (by decide)

/-- C8: the two-block scenario from the spec parses to exactly its two
pairs in order with invalid count 0. -/
theorem two_block_scenario :
    extract_qa_entries
        ("Is this correct?\nYes it is.\n-----\nWhat about this?\nAlso yes.\n".toList) =
      ([("Is this correct?".toList, "Yes it is.".toList),
        ("What about this?".toList, "Also yes.".toList)], 0) := by
  decide

/-- C9: an input whose lines are all blank after trimming (the empty string
included) yields no pairs and invalid count 0. -/
theorem blank_input_empty_result (text : List Char)
    (h : ∀ l ∈ pySplitlines (normalize_text text), strip l = []) :
    extract_qa_entries text = ([], 0) := by
  rw [extract_unfold, foldl_blank _ initState h,
    flush_empty initState rfl rfl]
  rfl

theorem blank_input_empty_result_witness :
    extract_qa_entries " \n\n ".toList = ([], 0) :=
  blank_input_empty_result " \n\n ".toList (by decide)

/-- C10: the defensive orphaned-answer branch of the flush never fires
(the parser equals the parser with that branch removed), and every emitted
question is a single trimmed line with no newline in it. -/
theorem orphan_branch_unreachable (text : List Char) :
    extract_qa_entries text = extract_qa_entries_nodef text ∧
    ∀ p ∈ (extract_qa_entries text).1, '\n' ∉ p.1 ∧ strip p.1 = p.1 := by
  refine ⟨extract_eq_nodef text, ?_⟩
  intro p hp
  obtain ⟨_, h2, h3, _, _⟩ := extract_entries_good text p hp
  exact ⟨h3, h2⟩

theorem orphan_branch_unreachable_witness :
    extract_qa_entries "Q?\nA\n".toList =
      extract_qa_entries_nodef "Q?\nA\n".toList ∧
    ('\n' ∉ "Q?".toList ∧ strip "Q?".toList = "Q?".toList) :=
  ⟨(orphan_branch_unreachable "Q?\nA\n".toList).1,
   (orphan_branch_unreachable "Q?\nA\n".toList).2
     ("Q?".toList, "A".toList) (by decide)⟩

/-- C1 (amended): the command accepts only a directory path — any
non-directory path (an existing regular file included) exits with code 1
and processes nothing; on a directory, the non-recursive `.txt` files are
processed, the exit code is 0 exactly when at least one valid pair was
gathered, and 1 when there are no `.txt` files or no valid pairs. -/
theorem process_requires_directory :
    (∀ files, processResult false files = (1, [])) ∧
    (∀ files, processResult true files =
      if gatherEntries files = [] then (1, [])
      else (0, gatherEntries files)) := by
  constructor
  · intro files
    rfl
  · intro files
    by_cases ht : txtNames files = []
    · have hg : gatherEntries files = [] := by
        rw [gatherEntries, ht]
        rfl
      simp [processResult, ht, hg]
    · by_cases hg : gatherEntries files = []
      · simp [processResult, ht, hg]
      · simp [processResult, ht, hg]

/-- C1 counterexample: a single existing file (not a directory) whose
content parses to a valid pair is rejected with exit code 1 and nothing is
processed, although the claim promises single-file inputs are processed
with zero exit when pairs are found. -/
theorem process_single_file_counterexample :
    (extract_qa_entries "Q?\nA\n".toList).1 = [("Q?".toList, "A".toList)] ∧
    processResult false [("notes.txt".toList, "Q?\nA\n".toList)] = (1, []) :=
  ⟨by decide, rfl⟩

end MoonSun

namespace MoonSun

/-! ### The record emitter round-trip (C3) -/

theorem hexVal_hexDigit {n : Nat} (h : n < 16) : hexVal (hexDigit n) = some n := by
  interval_cases n <;> decide

theorem readJsonString_u (d1 d2 d3 d4 : Char) (t : List Char) :
    readJsonString ('\\' :: 'u' :: d1 :: d2 :: d3 :: d4 :: t) =
      match hexVal d1, hexVal d2, hexVal d3, hexVal d4 with
      | some a, some b, some c2, some d =>
        (readJsonString t).map
          (fun p => (Char.ofNat (4096 * a + 256 * b + 16 * c2 + d) :: p.1, p.2))
      | _, _, _, _ => none := rfl

theorem readJsonString_plain {c : Char} (h1 : c ≠ '"') (h2 : c ≠ '\\')
    (h3 : ¬c.toNat < 0x20) (t : List Char) :
    readJsonString (c :: t) =
      (readJsonString t).map (fun p => (c :: p.1, p.2)) := by
  rw [readJsonString.eq_def]
  simp [h1, h2, h3]

theorem readJsonString_escChar (c : Char) (t : List Char) :
    readJsonString (escChar c ++ t) =
      (readJsonString t).map (fun p => (c :: p.1, p.2)) := by
  rw [escChar]
  split_ifs with h1 h2 h3 h4 h5 h6 h7 h8
  · subst h1; rw [readJsonString.eq_def]; simp
  · subst h2; rw [readJsonString.eq_def]; simp
  · subst h3; rw [readJsonString.eq_def]; simp
  · subst h4; rw [readJsonString.eq_def]; simp
  · subst h5; rw [readJsonString.eq_def]; simp
  · subst h6; rw [readJsonString.eq_def]; simp
  · subst h7; rw [readJsonString.eq_def]; simp
  · rw [show ['\\', 'u', '0', '0', hexDigit (c.toNat / 16),
        hexDigit (c.toNat % 16)] ++ t =
        '\\' :: 'u' :: '0' :: '0' :: hexDigit (c.toNat / 16) ::
          hexDigit (c.toNat % 16) :: t from rfl,
      readJsonString_u]
    simp only [show hexVal '0' = some 0 from rfl,
      hexVal_hexDigit (show c.toNat / 16 < 16 by omega),
      hexVal_hexDigit (show c.toNat % 16 < 16 by omega)]
    rw [show 4096 * 0 + 256 * 0 + 16 * (c.toNat / 16) + c.toNat % 16 =
        c.toNat from by omega, Char.ofNat_toNat]
  · rw [List.singleton_append]
    exact readJsonString_plain h1 h2 h8 t

theorem readJsonString_escList :
    ∀ (s rest : List Char),
      readJsonString (escList s ++ '"' :: rest) = some (s, rest)
  | [], _ => by
    rw [readJsonString.eq_def]
    simp [escList]
  | c :: cs, rest => by
    rw [escList, List.append_assoc, readJsonString_escChar c _,
      readJsonString_escList cs rest]
    rfl

theorem dropLit_append :
    ∀ (lit rest : List Char), dropLit lit (lit ++ rest) = some rest
  | [], _ => rfl
  | p :: ps, rest => by simp [dropLit, dropLit_append ps rest]

theorem dropLit_self (lit : List Char) : dropLit lit lit = some [] := by
  have h := dropLit_append lit []
  rwa [List.append_nil] at h

theorem parseRecordLine_recordLine (q a : List Char) :
    parseRecordLine (recordLine q a) = some (q, a) := by
  simp [parseRecordLine, recordLine, dropLit_append, readJsonString_escList,
    dropLit_self]

theorem hexDigit_ne_nl : ∀ m < 16, hexDigit m ≠ '\n' := by decide

theorem escChar_no_nl (c : Char) : '\n' ∉ escChar c := by
  rw [escChar]
  split_ifs with h1 h2 h3 h4 h5 h6 h7 h8
  · decide
  · decide
  · decide
  · decide
  · decide
  · decide
  · decide
  · intro hmem
    simp only [List.mem_cons, List.not_mem_nil, or_false] at hmem
    rcases hmem with h | h | h | h | h | h
    · exact absurd h (by decide)
    · exact absurd h (by decide)
    · exact absurd h (by decide)
    · exact absurd h (by decide)
    · exact hexDigit_ne_nl _ (by omega) h.symm
    · exact hexDigit_ne_nl _ (by omega) h.symm
  · intro hmem
    rw [List.mem_singleton] at hmem
    exact h5 hmem.symm

theorem escList_no_nl : ∀ s : List Char, '\n' ∉ escList s
  | [] => by simp [escList]
  | c :: cs => by
    rw [escList]
    intro hmem
    rcases List.mem_append.mp hmem with h | h
    · exact escChar_no_nl c h
    · exact escList_no_nl cs h

theorem recordLine_no_nl (q a : List Char) : '\n' ∉ recordLine q a := by
  rw [recordLine]
  intro hmem
  rcases List.mem_append.mp hmem with h | h
  · exact absurd h (by decide)
  rcases List.mem_append.mp h with h | h
  · exact escList_no_nl q h
  rcases List.mem_cons.mp h with h | h
  · exact absurd h (by decide)
  rcases List.mem_append.mp h with h | h
  · exact absurd h (by decide)
  rcases List.mem_append.mp h with h | h
  · exact escList_no_nl a h
  rcases List.mem_cons.mp h with h | h
  · exact absurd h (by decide)
  · exact absurd h (by decide)

theorem escChar_nonascii {c : Char} (h : 0x80 ≤ c.toNat) : escChar c = [c] := by
  rw [escChar]
  split_ifs with h1 h2 h3 h4 h5 h6 h7 h8
  · exact absurd h (by subst h1; decide)
  · exact absurd h (by subst h2; decide)
  · exact absurd h (by subst h3; decide)
  · exact absurd h (by subst h4; decide)
  · exact absurd h (by subst h5; decide)
  · exact absurd h (by subst h6; decide)
  · exact absurd h (by subst h7; decide)
  · exact absurd h8 (by omega)
  · rfl

/-- C3: a serialized record (one `json.dumps` line of the fixed
three-message shape with the constant system instruction) re-parses to the
exact original question and answer; the record contains no raw newline (so
it is a single line); and non-ASCII characters are never ASCII-escaped by
the serializer. -/
theorem record_roundtrip :
    (∀ q a : List Char, parseRecordLine (recordLine q a) = some (q, a)) ∧
    (∀ q a : List Char, '\n' ∉ recordLine q a) ∧
    (∀ c : Char, 0x80 ≤ c.toNat → escChar c = [c]) :=
  ⟨parseRecordLine_recordLine, recordLine_no_nl, fun _ h => escChar_nonascii h⟩

theorem record_roundtrip_witness :
    parseRecordLine (recordLine "سؤال؟".toList "پاسخ\nدوم".toList) =
      some ("سؤال؟".toList, "پاسخ\nدوم".toList) ∧
    escChar 'ب' = ['ب'] :=
  ⟨record_roundtrip.1 "سؤال؟".toList "پاسخ\nدوم".toList,
   record_roundtrip.2.2 'ب' (by decide)⟩

end MoonSun
